import Mathlib

/-!
# SwitchGain — verification of the signal-computation core

Shallow embedding of the indicator pipeline of
`src/algo_trading_strategies.ipynb`.  A price series is modelled as the
list of its `close` values (one entry per timestamp, in ascending
timestamp order, the timestamp being the list index).  Prices are exact
rationals; the rolling standard deviation, being a square root, lives in
`ℝ`.  Missing values (pandas `NaN`) are modelled by `Option`: `none` is
the spec's `undefined`.
-/

namespace SwitchGain

/-- `data['Close'].pct_change(periods=n)` at row `t`:
`close(t)/close(t-n) - 1`, `NaN` (here `none`) for the first `n` rows
and outside the series. -/
def mom (n : ℕ) (xs : List ℚ) (t : ℕ) : Option ℚ :=
  if n ≤ t then
    match xs.get? t, xs.get? (t - n) with
    | some c, some p => some (c / p - 1)
    | _, _ => none
  else none

/-- Single-period gain at timestamp `i`: `max (close(i) - close(i-1)) 0`,
`none` at `i = 0` (no predecessor) and outside the series. -/
def gain (xs : List ℚ) (i : ℕ) : Option ℚ :=
  if i = 0 then none else
    match xs.get? i, xs.get? (i - 1) with
    | some c, some p => some (max (c - p) 0)
    | _, _ => none

/-- Single-period loss at timestamp `i`: `max (close(i-1) - close(i)) 0`,
`none` at `i = 0` and outside the series. -/
def loss (xs : List ℚ) (i : ℕ) : Option ℚ :=
  if i = 0 then none else
    match xs.get? i, xs.get? (i - 1) with
    | some c, some p => some (max (p - c) 0)
    | _, _ => none

/-- Sum of a list of optional rationals; `none` as soon as one entry is
missing. -/
def sumOpt : List (Option ℚ) → Option ℚ
  | [] => some 0
  | none :: _ => none
  | some x :: rest => (sumOpt rest).map (fun s => x + s)

/-- Modelled from the spec: the 14-period Wilder-style smoothed average
used by `ta.momentum.RSIIndicator` (third-party library code, not under
`src/`).  `g i` is the gain (or loss) at timestamp `i`; the average is
`undefined` until 14 periods of history exist (timestamps `0..13`),
seeded at timestamp 14 with the simple average of the first 14
gains/losses, and from then on follows Wilder's recursion
`avg(t) = (avg(t-1)*13 + g(t)) / 14`. -/
def wilder (g : ℕ → Option ℚ) : ℕ → Option ℚ
  | 0 => none
  | t + 1 =>
    if t + 1 < 14 then none
    else if t + 1 = 14 then
      (sumOpt ((List.range 14).map fun i => g (i + 1))).map (· / 14)
    else
      match wilder g t, g (t + 1) with
      | some a, some d => some ((a * 13 + d) / 14)
      | _, _ => none

/-- 14-period smoothed average gain of `close`. -/
def avgGain (xs : List ℚ) (t : ℕ) : Option ℚ := wilder (gain xs) t

/-- 14-period smoothed average loss of `close`. -/
def avgLoss (xs : List ℚ) (t : ℕ) : Option ℚ := wilder (loss xs) t

/-- Modelled from the spec:
`ta.momentum.RSIIndicator(data['Close'], window=14).rsi()` — the `ta`
library's internals are not under `src/`.  Per the spec:
`RS = avg_gain/avg_loss`, `RSI = 100 - 100/(1+RS)`; defined as `100`
when `avg_loss = 0` and `avg_gain > 0`; division by zero (`avg_loss = 0`
with `avg_gain = 0`) yields `undefined`; `undefined` until 14 periods of
history exist. -/
def rsi (xs : List ℚ) (t : ℕ) : Option ℚ :=
  match avgGain xs t, avgLoss xs t with
  | some ag, some al =>
    if al = 0 then (if 0 < ag then some 100 else none)
    else some (100 - 100 / (1 + ag / al))
  | _, _ => none

/-- Elementwise `series > c` in pandas: a `NaN` entry compares `False`. -/
def gtOpt (o : Option ℚ) (c : ℚ) : Bool :=
  match o with
  | some x => decide (c < x)
  | none => false

/-- Elementwise `series < c` in pandas: a `NaN` entry compares `False`. -/
def ltOpt (o : Option ℚ) (c : ℚ) : Bool :=
  match o with
  | some x => decide (x < c)
  | none => false

/-- `(data['Momentum_5D'] > 0) & (data['RSI'] > 30) & (data['RSI'] < 70)`. -/
def momBuyCond (m r : Option ℚ) : Bool :=
  gtOpt m 0 && gtOpt r 30 && ltOpt r 70

/-- `(data['Momentum_5D'] < 0) & (data['RSI'] > 70)`. -/
def momSellCond (m r : Option ℚ) : Bool :=
  ltOpt m 0 && gtOpt r 70

/-- `data['Signal'] = np.where(buy, 1, np.where(sell, -1, 0))`. -/
def momSignal (xs : List ℚ) (t : ℕ) : Int :=
  if momBuyCond (mom 5 xs t) (rsi xs t) then 1
  else if momSellCond (mom 5 xs t) (rsi xs t) then -1
  else 0

/-- The trailing window of `w` observations ending at and including
timestamp `t`. -/
def window (w : ℕ) (xs : List ℚ) (t : ℕ) : List ℚ :=
  (xs.take (t + 1)).drop (t + 1 - w)

/-- `data['Close'].rolling(window=w).mean()` at row `t`: the mean of the
trailing `w` closes; `NaN` (here `none`) while fewer than `w`
observations exist. -/
def sma (w : ℕ) (xs : List ℚ) (t : ℕ) : Option ℚ :=
  if w ≤ t + 1 ∧ t < xs.length then some ((window w xs t).sum / w)
  else none

/-- The square of `data['Close'].rolling(window=w).std()` at row `t`:
the sample variance (pandas default `ddof=1`, denominator `w - 1`) of
the trailing `w` closes; `NaN` (here `none`) while fewer than `w`
observations exist.  Kept in `ℚ` so that it is exactly computable; the
standard deviation itself is its real square root, `rollStd`. -/
def svar (w : ℕ) (xs : List ℚ) (t : ℕ) : Option ℚ :=
  if w ≤ t + 1 ∧ t < xs.length then
    some (((window w xs t).map
      (fun x => (x - (window w xs t).sum / w) ^ 2)).sum / (w - 1 : ℕ))
  else none

/-- `data['STD'] = data['Close'].rolling(window=20).std()`: the real
square root of the rolling sample variance with the source's
`window = 20`. -/
noncomputable def rollStd (xs : List ℚ) (t : ℕ) : Option ℝ :=
  (svar 20 xs t).map (fun v => Real.sqrt v)

/-- `data['SMA'] = data['Close'].rolling(window=20).mean()` with the
source's `window = 20`. -/
def sma20 (xs : List ℚ) (t : ℕ) : Option ℚ := sma 20 xs t

/-- `data['Upper'] = data['SMA'] + (data['STD'] * 1.5)`. -/
noncomputable def upperBand (xs : List ℚ) (t : ℕ) : Option ℝ :=
  match sma 20 xs t, rollStd xs t with
  | some m, some s => some ((m : ℝ) + s * (3 / 2))
  | _, _ => none

/-- `data['Lower'] = data['SMA'] - (data['STD'] * 1.5)`. -/
noncomputable def lowerBand (xs : List ℚ) (t : ℕ) : Option ℝ :=
  match sma 20 xs t, rollStd xs t with
  | some m, some s => some ((m : ℝ) - s * (3 / 2))
  | _, _ => none

/-- `data['Z-Score'] = (data['Close'] - data['SMA']) / data['STD']`:
`NaN` (here `none`) where `STD` is `NaN` or `0` (a zero `STD` forces a
constant window, hence a `0/0` division, which is `NaN` in the source's
arithmetic and `undefined` in the spec). -/
noncomputable def zScore (xs : List ℚ) (t : ℕ) : Option ℝ :=
  match xs.get? t, sma 20 xs t, svar 20 xs t with
  | some c, some m, some v =>
    if v = 0 then none else some (((c : ℝ) - (m : ℝ)) / Real.sqrt v)
  | _, _, _ => none

/-- The three-state trading signal. -/
inductive Signal
  | buy
  | sell
  | neutral
  deriving DecidableEq

/-- The mean-reversion classification: the source marks Buy at the rows
selected by `data.loc[data['Z-Score'] < -1.5]` and Sell at the rows
selected by `data.loc[data['Z-Score'] > 1.5]` (a `NaN` Z-Score compares
`False` and is selected by neither); every other row is Neutral. -/
noncomputable def mrSignal (xs : List ℚ) (t : ℕ) : Signal :=
  match zScore xs t with
  | some z => if z < -(3 / 2 : ℝ) then .buy
              else if (3 / 2 : ℝ) < z then .sell
              else .neutral
  | none => .neutral

/-- Series of 25 constant closes, the spec's constant-price example. -/
def constSeries : List ℚ := List.replicate 25 50

/-- A 20-point series whose trailing 20-window at `t = 19` has mean 100
and sample variance exactly 4 (deviations 6, −6, 1, −1, 1, −1 and
fourteen zeros: sum of squares 76 = 19·4). -/
def v4Series : List ℚ :=
  [106, 94, 101, 99, 101, 99, 100, 100, 100, 100,
   100, 100, 100, 100, 100, 100, 100, 100, 100, 100]

/-- A strictly rising series: closes 1, 2, …, 16. -/
def risingSeries : List ℚ :=
  [1, 2, 3, 4, 5, 6, 7, 8, 9, 10, 11, 12, 13, 14, 15, 16]

end SwitchGain

namespace SwitchGain

theorem get?_isSome_iff (l : List ℚ) (n : ℕ) :
    (l.get? n).isSome ↔ n < l.length := by
  constructor
  · intro h
    by_contra hn
    rw [List.get?_eq_none.mpr (Nat.le_of_not_lt hn)] at h
    simp at h
  · intro h
    rw [List.get?_eq_get h]
    simp

theorem get?_some_of_lt (l : List ℚ) (n : ℕ) (h : n < l.length) :
    ∃ x, l.get? n = some x :=
  ⟨l.get ⟨n, h⟩, List.get?_eq_get h⟩

theorem mom_isSome_iff (n : ℕ) (xs : List ℚ) (t : ℕ) :
    (mom n xs t).isSome ↔ n ≤ t ∧ t < xs.length := by
  unfold mom
  by_cases hn : n ≤ t
  · simp only [if_pos hn]
    constructor
    · intro h
      refine ⟨hn, ?_⟩
      by_contra hlen
      rw [List.get?_eq_none.mpr (Nat.le_of_not_lt hlen)] at h
      simp at h
    · rintro ⟨-, hlen⟩
      obtain ⟨c, hc⟩ := get?_some_of_lt xs t hlen
      obtain ⟨p, hp⟩ := get?_some_of_lt xs (t - n)
        (lt_of_le_of_lt (Nat.sub_le t n) hlen)
      rw [hc, hp]
      simp
  · simp [if_neg hn, hn]

theorem gain_isSome_iff (xs : List ℚ) (i : ℕ) :
    (gain xs i).isSome ↔ 1 ≤ i ∧ i < xs.length := by
  unfold gain
  by_cases h0 : i = 0
  · simp [h0]
  · simp only [if_neg h0]
    constructor
    · intro h
      refine ⟨Nat.one_le_iff_ne_zero.mpr h0, ?_⟩
      by_contra hlen
      rw [List.get?_eq_none.mpr (Nat.le_of_not_lt hlen)] at h
      simp at h
    · rintro ⟨-, hlen⟩
      obtain ⟨c, hc⟩ := get?_some_of_lt xs i hlen
      obtain ⟨p, hp⟩ := get?_some_of_lt xs (i - 1)
        (lt_of_le_of_lt (Nat.sub_le i 1) hlen)
      rw [hc, hp]
      simp

theorem loss_isSome_iff (xs : List ℚ) (i : ℕ) :
    (loss xs i).isSome ↔ 1 ≤ i ∧ i < xs.length := by
  unfold loss
  by_cases h0 : i = 0
  · simp [h0]
  · simp only [if_neg h0]
    constructor
    · intro h
      refine ⟨Nat.one_le_iff_ne_zero.mpr h0, ?_⟩
      by_contra hlen
      rw [List.get?_eq_none.mpr (Nat.le_of_not_lt hlen)] at h
      simp at h
    · rintro ⟨-, hlen⟩
      obtain ⟨c, hc⟩ := get?_some_of_lt xs i hlen
      obtain ⟨p, hp⟩ := get?_some_of_lt xs (i - 1)
        (lt_of_le_of_lt (Nat.sub_le i 1) hlen)
      rw [hc, hp]
      simp

theorem gain_nonneg (xs : List ℚ) (i : ℕ) (v : ℚ) (h : gain xs i = some v) :
    0 ≤ v := by
  unfold gain at h
  by_cases h0 : i = 0
  · simp [h0] at h
  · simp only [if_neg h0] at h
    rcases hc : xs.get? i with _ | c <;> rcases hp : xs.get? (i - 1) with _ | p <;>
      rw [hc, hp] at h <;> simp_all
    rw [← h]
    exact le_max_right _ _

theorem loss_nonneg (xs : List ℚ) (i : ℕ) (v : ℚ) (h : loss xs i = some v) :
    0 ≤ v := by
  unfold loss at h
  by_cases h0 : i = 0
  · simp [h0] at h
  · simp only [if_neg h0] at h
    rcases hc : xs.get? i with _ | c <;> rcases hp : xs.get? (i - 1) with _ | p <;>
      rw [hc, hp] at h <;> simp_all
    rw [← h]
    exact le_max_right _ _

theorem sumOpt_isSome_iff (l : List (Option ℚ)) :
    (sumOpt l).isSome ↔ ∀ o ∈ l, o.isSome := by
  induction l with
  | nil => simp [sumOpt]
  | cons o rest ih =>
    rcases o with _ | x
    · simp [sumOpt]
    · simp [sumOpt, ih]

theorem sumOpt_nonneg (l : List (Option ℚ))
    (hl : ∀ o ∈ l, ∀ v, o = some v → 0 ≤ v) (s : ℚ) (h : sumOpt l = some s) :
    0 ≤ s := by
  induction l generalizing s with
  | nil =>
    simp [sumOpt] at h
    exact le_of_eq h
  | cons o rest ih =>
    rcases o with _ | x
    · simp [sumOpt] at h
    · unfold sumOpt at h
      rcases hr : sumOpt rest with _ | s'
      · rw [hr] at h; simp at h
      · rw [hr] at h
        simp at h
        rw [← h]
        have hx : (0 : ℚ) ≤ x := hl (some x) (by simp) x rfl
        have hs' : (0 : ℚ) ≤ s' := ih (fun o ho v hv => hl o (by simp [ho]) v hv) s' hr
        linarith

theorem sumOpt_all_zero (l : List (Option ℚ)) (hl : ∀ o ∈ l, o = some 0) :
    sumOpt l = some 0 := by
  induction l with
  | nil => rfl
  | cons o rest ih =>
    have ho : o = some 0 := hl o (by simp)
    subst ho
    unfold sumOpt
    rw [ih (fun o ho => hl o (by simp [ho]))]
    simp

theorem wilder_at_14 (g : ℕ → Option ℚ) :
    wilder g 14 = (sumOpt ((List.range 14).map fun i => g (i + 1))).map (· / 14) := by
  show wilder g (13 + 1) = _
  rw [wilder]
  norm_num

theorem wilder_step (g : ℕ → Option ℚ) (t : ℕ) (h : 14 ≤ t) :
    wilder g (t + 1) =
      match wilder g t, g (t + 1) with
      | some a, some d => some ((a * 13 + d) / 14)
      | _, _ => none := by
  rw [wilder]
  rw [if_neg (by omega), if_neg (by omega)]

theorem wilder_none_of_lt (g : ℕ → Option ℚ) (t : ℕ) (h : t < 14) :
    wilder g t = none := by
  cases t with
  | zero => rfl
  | succ t' =>
    rw [wilder]
    rw [if_pos h]

theorem wilder_isSome_le (g : ℕ → Option ℚ) (t : ℕ)
    (h : (wilder g t).isSome) : 14 ≤ t := by
  by_contra hlt
  rw [wilder_none_of_lt g t (Nat.lt_of_not_le hlt)] at h
  simp at h

theorem wilder_isSome_of (g : ℕ → Option ℚ) (t : ℕ) (h14 : 14 ≤ t)
    (hdef : ∀ i, 1 ≤ i → i ≤ t → (g i).isSome) : (wilder g t).isSome := by
  induction t, h14 using Nat.le_induction with
  | base =>
    rw [wilder_at_14]
    simp only [Option.isSome_map']
    rw [sumOpt_isSome_iff]
    intro o ho
    simp only [List.mem_map, List.mem_range] at ho
    obtain ⟨i, hi, rfl⟩ := ho
    exact hdef (i + 1) (by omega) (by omega)
  | succ t ht ih =>
    rw [wilder_step g t ht]
    have h1 : (wilder g t).isSome := ih (fun i hi1 hi2 => hdef i hi1 (by omega))
    have h2 : (g (t + 1)).isSome := hdef (t + 1) (by omega) (by omega)
    obtain ⟨a, ha⟩ := Option.isSome_iff_exists.mp h1
    obtain ⟨d, hd⟩ := Option.isSome_iff_exists.mp h2
    rw [ha, hd]
    simp

theorem wilder_isSome_imp (g : ℕ → Option ℚ) (t : ℕ)
    (h : (wilder g t).isSome) : (g t).isSome := by
  have h14 := wilder_isSome_le g t h
  rcases Nat.lt_or_ge t 15 with hle | hgt
  · have ht : t = 14 := by omega
    subst ht
    rw [wilder_at_14] at h
    simp only [Option.isSome_map'] at h
    rw [sumOpt_isSome_iff] at h
    have := h (g (13 + 1)) (by
      simp only [List.mem_map, List.mem_range]
      exact ⟨13, by omega, rfl⟩)
    simpa using this
  · obtain ⟨t', rfl⟩ : ∃ t', t = t' + 1 := ⟨t - 1, by omega⟩
    rw [wilder_step g t' (by omega)] at h
    rcases hw : wilder g t' with _ | a <;> rcases hg : g (t' + 1) with _ | d <;>
      rw [hw, hg] at h <;> simp_all

theorem wilder_congr (g g' : ℕ → Option ℚ) (t : ℕ)
    (hagree : ∀ i, i ≤ t → g i = g' i) : wilder g t = wilder g' t := by
  induction t with
  | zero => rfl
  | succ t ih =>
    by_cases h14 : t + 1 < 14
    · rw [wilder_none_of_lt g _ h14, wilder_none_of_lt g' _ h14]
    · by_cases heq : t + 1 = 14
      · have ht : t = 13 := by omega
        subst ht
        rw [show (13 : ℕ) + 1 = 14 from rfl, wilder_at_14, wilder_at_14]
        have : (List.range 14).map (fun i => g (i + 1))
            = (List.range 14).map (fun i => g' (i + 1)) := by
          apply List.map_congr_left
          intro i hi
          simp only [List.mem_range] at hi
          exact hagree (i + 1) (by omega)
        rw [this]
      · have ht : 14 ≤ t := by omega
        rw [wilder_step g t ht, wilder_step g' t ht]
        rw [ih (fun i hi => hagree i (by omega)), hagree (t + 1) le_rfl]

theorem wilder_const_zero (g : ℕ → Option ℚ) (t : ℕ) (h14 : 14 ≤ t)
    (hz : ∀ i, 1 ≤ i → i ≤ t → g i = some 0) : wilder g t = some 0 := by
  induction t, h14 using Nat.le_induction with
  | base =>
    rw [wilder_at_14]
    rw [sumOpt_all_zero]
    · simp
    · intro o ho
      simp only [List.mem_map, List.mem_range] at ho
      obtain ⟨i, hi, rfl⟩ := ho
      exact hz (i + 1) (by omega) (by omega)
  | succ t ht ih =>
    rw [wilder_step g t ht]
    rw [ih (fun i hi1 hi2 => hz i hi1 (by omega)), hz (t + 1) (by omega) le_rfl]
    norm_num

theorem wilder_nonneg (g : ℕ → Option ℚ)
    (hg : ∀ i v, g i = some v → 0 ≤ v) (t : ℕ) (a : ℚ)
    (h : wilder g t = some a) : 0 ≤ a := by
  induction t generalizing a with
  | zero => simp [wilder] at h
  | succ t ih =>
    by_cases h14 : t + 1 < 14
    · rw [wilder_none_of_lt g _ h14] at h
      simp at h
    · by_cases heq : t + 1 = 14
      · have ht : t = 13 := by omega
        subst ht
        rw [show (13 : ℕ) + 1 = 14 from rfl, wilder_at_14] at h
        rcases hs : sumOpt ((List.range 14).map fun i => g (i + 1)) with _ | s
        · rw [hs] at h; simp at h
        · rw [hs] at h
          simp at h
          have hsn : (0 : ℚ) ≤ s := by
            apply sumOpt_nonneg _ _ s hs
            intro o ho v hv
            simp only [List.mem_map, List.mem_range] at ho
            obtain ⟨i, hi, rfl⟩ := ho
            exact hg (i + 1) v hv
          rw [← h]
          exact div_nonneg hsn (by norm_num)
      · have ht : 14 ≤ t := by omega
        rw [wilder_step g t ht] at h
        rcases hw : wilder g t with _ | a' <;> rcases hgt : g (t + 1) with _ | d <;>
          rw [hw, hgt] at h
        · simp at h
        · simp at h
        · simp at h
        · simp at h
          have ha' := ih a' hw
          have hd := hg (t + 1) d hgt
          rw [← h]
          apply div_nonneg _ (by norm_num)
          linarith

theorem avgGain_isSome_iff (xs : List ℚ) (t : ℕ) :
    (avgGain xs t).isSome ↔ 14 ≤ t ∧ t < xs.length := by
  constructor
  · intro h
    have h14 := wilder_isSome_le _ _ h
    have hg := wilder_isSome_imp _ _ h
    rw [gain_isSome_iff] at hg
    exact ⟨h14, hg.2⟩
  · rintro ⟨h14, hlen⟩
    apply wilder_isSome_of _ _ h14
    intro i h1 h2
    rw [gain_isSome_iff]
    exact ⟨h1, lt_of_le_of_lt h2 hlen⟩

theorem avgLoss_isSome_iff (xs : List ℚ) (t : ℕ) :
    (avgLoss xs t).isSome ↔ 14 ≤ t ∧ t < xs.length := by
  constructor
  · intro h
    have h14 := wilder_isSome_le _ _ h
    have hg := wilder_isSome_imp _ _ h
    rw [loss_isSome_iff] at hg
    exact ⟨h14, hg.2⟩
  · rintro ⟨h14, hlen⟩
    apply wilder_isSome_of _ _ h14
    intro i h1 h2
    rw [loss_isSome_iff]
    exact ⟨h1, lt_of_le_of_lt h2 hlen⟩

theorem avgGain_nonneg (xs : List ℚ) (t : ℕ) (a : ℚ)
    (h : avgGain xs t = some a) : 0 ≤ a :=
  wilder_nonneg _ (fun i v hv => gain_nonneg xs i v hv) t a h

theorem avgLoss_nonneg (xs : List ℚ) (t : ℕ) (a : ℚ)
    (h : avgLoss xs t = some a) : 0 ≤ a :=
  wilder_nonneg _ (fun i v hv => loss_nonneg xs i v hv) t a h

theorem rsi_isSome_iff (xs : List ℚ) (t : ℕ) :
    (rsi xs t).isSome ↔ 14 ≤ t ∧ t < xs.length ∧
      ¬(avgGain xs t = some 0 ∧ avgLoss xs t = some 0) := by
  unfold rsi
  rcases hg : avgGain xs t with _ | ag <;> rcases hl : avgLoss xs t with _ | al
  · constructor
    · intro h; simp at h
    · rintro ⟨h14, hlen, -⟩
      have : (avgGain xs t).isSome := (avgGain_isSome_iff xs t).mpr ⟨h14, hlen⟩
      rw [hg] at this; simp at this
  · constructor
    · intro h; simp at h
    · rintro ⟨h14, hlen, -⟩
      have : (avgGain xs t).isSome := (avgGain_isSome_iff xs t).mpr ⟨h14, hlen⟩
      rw [hg] at this; simp at this
  · constructor
    · intro h; simp at h
    · rintro ⟨h14, hlen, -⟩
      have : (avgLoss xs t).isSome := (avgLoss_isSome_iff xs t).mpr ⟨h14, hlen⟩
      rw [hl] at this; simp at this
  · have hdom : 14 ≤ t ∧ t < xs.length := by
      have : (avgGain xs t).isSome := by rw [hg]; simp
      exact (avgGain_isSome_iff xs t).mp this
    have hag : (0 : ℚ) ≤ ag := avgGain_nonneg xs t ag hg
    simp only [Option.some_inj]
    by_cases hal0 : al = 0
    · subst hal0
      rw [if_pos rfl]
      by_cases hag0 : 0 < ag
      · rw [if_pos hag0]
        simp only [Option.isSome_some, true_iff]
        refine ⟨hdom.1, hdom.2, ?_⟩
        rintro ⟨hz, -⟩
        exact hag0.ne' hz
      · rw [if_neg hag0]
        have : ag = 0 := le_antisymm (not_lt.mp hag0) hag
        subst this
        simp [hdom.1, hdom.2]
    · rw [if_neg hal0]
      simp only [Option.isSome_some, true_iff]
      refine ⟨hdom.1, hdom.2, ?_⟩
      rintro ⟨-, hz⟩
      exact hal0 hz

theorem window_length (w : ℕ) (xs : List ℚ) (t : ℕ) (hw : w ≤ t + 1)
    (ht : t < xs.length) : (window w xs t).length = w := by
  unfold window
  rw [List.length_drop, List.length_take]
  omega

theorem sma_isSome_iff (w : ℕ) (xs : List ℚ) (t : ℕ) :
    (sma w xs t).isSome ↔ w ≤ t + 1 ∧ t < xs.length := by
  unfold sma
  split <;> simp_all

theorem svar_isSome_iff (w : ℕ) (xs : List ℚ) (t : ℕ) :
    (svar w xs t).isSome ↔ w ≤ t + 1 ∧ t < xs.length := by
  unfold svar
  split <;> simp_all

theorem svar_nonneg (w : ℕ) (xs : List ℚ) (t : ℕ) (v : ℚ)
    (h : svar w xs t = some v) : 0 ≤ v := by
  unfold svar at h
  split at h
  · simp only [Option.some_inj] at h
    rw [← h]
    apply div_nonneg
    · apply List.sum_nonneg
      intro x hx
      simp only [List.mem_map] at hx
      obtain ⟨y, hy, rfl⟩ := hx
      positivity
    · positivity
  · simp at h

theorem svar_const_zero (w : ℕ) (xs : List ℚ) (t : ℕ) (c : ℚ) (hw0 : 0 < w)
    (hw : w ≤ t + 1) (ht : t < xs.length) (hc : ∀ x ∈ window w xs t, x = c) :
    svar w xs t = some 0 := by
  unfold svar
  rw [if_pos ⟨hw, ht⟩]
  have hlen := window_length w xs t hw ht
  have hw' : (w : ℚ) ≠ 0 := Nat.cast_ne_zero.mpr hw0.ne'
  have hsum : (window w xs t).sum = (w : ℚ) * c := by
    rw [List.sum_eq_card_nsmul _ c hc, hlen]
    simp [nsmul_eq_mul]
  have hmap : (window w xs t).map
      (fun x => (x - (window w xs t).sum / w) ^ 2)
      = (window w xs t).map (fun _ => 0) := by
    apply List.map_congr_left
    intro x hx
    rw [hc x hx, hsum, mul_div_cancel_left₀ c hw']
    simp
  rw [hmap]
  simp

theorem zScore_eq_some (xs : List ℚ) (t : ℕ) (c m v : ℚ)
    (hc : xs.get? t = some c) (hm : sma 20 xs t = some m)
    (hv : svar 20 xs t = some v) (hv0 : v ≠ 0) :
    zScore xs t = some (((c : ℝ) - (m : ℝ)) / Real.sqrt v) := by
  unfold zScore
  rw [hc, hm, hv]
  simp [hv0]

theorem zScore_isSome_iff (xs : List ℚ) (t : ℕ) :
    (zScore xs t).isSome ↔ 19 ≤ t ∧ t < xs.length ∧ svar 20 xs t ≠ some 0 := by
  unfold zScore
  rcases hc : xs.get? t with _ | c <;> rcases hm : sma 20 xs t with _ | m <;>
    rcases hv : svar 20 xs t with _ | v
  case' none.none.none | none.none.some | none.some.none | none.some.some =>
    simp only [Option.isSome_none, Bool.false_eq_true, false_iff]
    rintro ⟨h19, hlen, -⟩
    obtain ⟨x, hx⟩ := get?_some_of_lt xs t hlen
    rw [hc] at hx; cases hx
  case' some.none.none | some.none.some =>
    simp only [Option.isSome_none, Bool.false_eq_true, false_iff]
    rintro ⟨h19, hlen, -⟩
    have hs : (sma 20 xs t).isSome := (sma_isSome_iff 20 xs t).mpr ⟨by omega, hlen⟩
    rw [hm] at hs; simp at hs
  case some.some.none =>
    simp only [Option.isSome_none, Bool.false_eq_true, false_iff]
    rintro ⟨h19, hlen, -⟩
    have hs : (svar 20 xs t).isSome := (svar_isSome_iff 20 xs t).mpr ⟨by omega, hlen⟩
    rw [hv] at hs; simp at hs
  case some.some.some =>
    have hdom : 20 ≤ t + 1 ∧ t < xs.length := by
      have hs : (svar 20 xs t).isSome := by rw [hv]; simp
      exact (svar_isSome_iff 20 xs t).mp hs
    by_cases hv0 : v = 0
    · subst hv0
      simp
    · simp only [if_neg hv0, Option.isSome_some, true_iff, ne_eq,
        Option.some_inj]
      exact ⟨by omega, hdom.2, hv0⟩

theorem get?_append_lt (xs ys : List ℚ) (n : ℕ) (h : n < xs.length) :
    (xs ++ ys).get? n = xs.get? n :=
  List.get?_append h

theorem mom_append (n : ℕ) (xs ys : List ℚ) (t : ℕ) (ht : t < xs.length) :
    mom n (xs ++ ys) t = mom n xs t := by
  unfold mom
  by_cases hn : n ≤ t
  · rw [if_pos hn, if_pos hn, get?_append_lt xs ys t ht,
      get?_append_lt xs ys (t - n) (lt_of_le_of_lt (Nat.sub_le t n) ht)]
  · rw [if_neg hn, if_neg hn]

theorem gain_append (xs ys : List ℚ) (i : ℕ) (hi : i < xs.length) :
    gain (xs ++ ys) i = gain xs i := by
  unfold gain
  by_cases h0 : i = 0
  · rw [if_pos h0, if_pos h0]
  · rw [if_neg h0, if_neg h0, get?_append_lt xs ys i hi,
      get?_append_lt xs ys (i - 1) (lt_of_le_of_lt (Nat.sub_le i 1) hi)]

theorem loss_append (xs ys : List ℚ) (i : ℕ) (hi : i < xs.length) :
    loss (xs ++ ys) i = loss xs i := by
  unfold loss
  by_cases h0 : i = 0
  · rw [if_pos h0, if_pos h0]
  · rw [if_neg h0, if_neg h0, get?_append_lt xs ys i hi,
      get?_append_lt xs ys (i - 1) (lt_of_le_of_lt (Nat.sub_le i 1) hi)]

theorem avgGain_append (xs ys : List ℚ) (t : ℕ) (ht : t < xs.length) :
    avgGain (xs ++ ys) t = avgGain xs t := by
  unfold avgGain
  exact wilder_congr _ _ t (fun i hi => gain_append xs ys i (lt_of_le_of_lt hi ht))

theorem avgLoss_append (xs ys : List ℚ) (t : ℕ) (ht : t < xs.length) :
    avgLoss (xs ++ ys) t = avgLoss xs t := by
  unfold avgLoss
  exact wilder_congr _ _ t (fun i hi => loss_append xs ys i (lt_of_le_of_lt hi ht))

theorem rsi_append (xs ys : List ℚ) (t : ℕ) (ht : t < xs.length) :
    rsi (xs ++ ys) t = rsi xs t := by
  unfold rsi
  rw [avgGain_append xs ys t ht, avgLoss_append xs ys t ht]

theorem window_append (w : ℕ) (xs ys : List ℚ) (t : ℕ) (ht : t < xs.length) :
    window w (xs ++ ys) t = window w xs t := by
  unfold window
  rw [List.take_append_of_le_length (by omega)]

theorem sma_append (w : ℕ) (xs ys : List ℚ) (t : ℕ) (ht : t < xs.length) :
    sma w (xs ++ ys) t = sma w xs t := by
  unfold sma
  by_cases hw : w ≤ t + 1
  · rw [if_pos ⟨hw, by rw [List.length_append]; omega⟩, if_pos ⟨hw, ht⟩,
      window_append w xs ys t ht]
  · rw [if_neg (fun hh => hw hh.1), if_neg (fun hh => hw hh.1)]

theorem svar_append (w : ℕ) (xs ys : List ℚ) (t : ℕ) (ht : t < xs.length) :
    svar w (xs ++ ys) t = svar w xs t := by
  unfold svar
  by_cases hw : w ≤ t + 1
  · rw [if_pos ⟨hw, by rw [List.length_append]; omega⟩, if_pos ⟨hw, ht⟩,
      window_append w xs ys t ht]
  · rw [if_neg (fun hh => hw hh.1), if_neg (fun hh => hw hh.1)]

theorem rollStd_append (xs ys : List ℚ) (t : ℕ) (ht : t < xs.length) :
    rollStd (xs ++ ys) t = rollStd xs t := by
  unfold rollStd
  rw [svar_append 20 xs ys t ht]

theorem zScore_append (xs ys : List ℚ) (t : ℕ) (ht : t < xs.length) :
    zScore (xs ++ ys) t = zScore xs t := by
  unfold zScore
  rw [get?_append_lt xs ys t ht, sma_append 20 xs ys t ht,
    svar_append 20 xs ys t ht]

end SwitchGain

namespace SwitchGain

example : mom 1 [100, 102, 101, 105, 104, 108] 5 = some (108 / 104 - 1) := by
  simp [mom, List.get?]

example : mom 5 [100, 102, 101, 105, 104, 108] 5 = some (2 / 25) := by
  simp [mom, List.get?]; norm_num

example : mom 5 [100, 102, 101, 105, 104, 108] 4 = none := by simp [mom]

example : rsi (List.replicate 15 (50 : ℚ)) 14 = none := by
  simp [rsi, avgGain, avgLoss, wilder, gain, loss, sumOpt, List.range_succ,
    List.get?, List.replicate]

example : rsi [1, 2, 3, 4, 5, 6, 7, 8, 9, 10, 11, 12, 13, 14, 15, 16] 15
    = some 100 := by
  simp [rsi, avgGain, avgLoss, wilder, gain, loss, sumOpt, List.range_succ,
    List.get?]
  norm_num

end SwitchGain

namespace SwitchGain

theorem momBuyCond_iff (m r : Option ℚ) :
    momBuyCond m r = true ↔ ∃ mv rv, m = some mv ∧ r = some rv ∧
      0 < mv ∧ 30 < rv ∧ rv < 70 := by
  unfold momBuyCond gtOpt ltOpt
  rcases m with _ | mv <;> rcases r with _ | rv <;> simp
  all_goals tauto

theorem momSellCond_iff (m r : Option ℚ) :
    momSellCond m r = true ↔ ∃ mv rv, m = some mv ∧ r = some rv ∧
      mv < 0 ∧ 70 < rv := by
  unfold momSellCond gtOpt ltOpt
  rcases m with _ | mv <;> rcases r with _ | rv <;> simp

theorem mom_conds_disjoint (m r : Option ℚ) :
    ¬(momBuyCond m r = true ∧ momSellCond m r = true) := by
  rintro ⟨hb, hs⟩
  rw [momBuyCond_iff] at hb
  rw [momSellCond_iff] at hs
  obtain ⟨mv, rv, hm, hr, hmv, -, -⟩ := hb
  obtain ⟨mv', rv', hm', hr', hmv', -⟩ := hs
  rw [hm] at hm'
  rw [Option.some_inj] at hm'
  subst hm'
  linarith

theorem mrSignal_some (xs : List ℚ) (t : ℕ) (z : ℝ) (hz : zScore xs t = some z) :
    mrSignal xs t = if z < -(3 / 2 : ℝ) then Signal.buy
      else if (3 / 2 : ℝ) < z then Signal.sell else Signal.neutral := by
  unfold mrSignal
  rw [hz]

theorem mrSignal_none (xs : List ℚ) (t : ℕ) (hz : zScore xs t = none) :
    mrSignal xs t = Signal.neutral := by
  unfold mrSignal
  rw [hz]

end SwitchGain

namespace SwitchGain

/-- C1: for every timestamp `t`, the momentum signal equals Buy (`1`)
iff `Momentum_5D(t) > 0` and `30 < RSI(t) < 70`, equals Sell (`-1`) iff
`Momentum_5D(t) < 0` and `RSI(t) > 70`, and equals Neutral (`0`) in
every other case — in particular whenever `Momentum_5D(t)` or `RSI(t)`
is undefined, and when `RSI(t)` equals exactly `30` or `70` (the strict
inequalities make ties resolve to Neutral). -/
theorem C1_momentum_signal_classification (xs : List ℚ) (t : ℕ) :
    (momSignal xs t = 1 ↔ ∃ m r, mom 5 xs t = some m ∧ rsi xs t = some r ∧
        0 < m ∧ 30 < r ∧ r < 70) ∧
    (momSignal xs t = -1 ↔ ∃ m r, mom 5 xs t = some m ∧ rsi xs t = some r ∧
        m < 0 ∧ 70 < r) ∧
    (momSignal xs t = 0 ↔
      ¬(∃ m r, mom 5 xs t = some m ∧ rsi xs t = some r ∧
          0 < m ∧ 30 < r ∧ r < 70) ∧
      ¬(∃ m r, mom 5 xs t = some m ∧ rsi xs t = some r ∧
          m < 0 ∧ 70 < r)) := by
  have hbi := momBuyCond_iff (mom 5 xs t) (rsi xs t)
  have hsi := momSellCond_iff (mom 5 xs t) (rsi xs t)
  have hdisj := mom_conds_disjoint (mom 5 xs t) (rsi xs t)
  unfold momSignal
  by_cases h1 : momBuyCond (mom 5 xs t) (rsi xs t) = true
  · rw [if_pos h1]
    have hbp := hbi.mp h1
    have hns : ¬∃ m r, mom 5 xs t = some m ∧ rsi xs t = some r ∧
        m < 0 ∧ 70 < r := fun hs => hdisj ⟨h1, hsi.mpr hs⟩
    refine ⟨⟨fun _ => hbp, fun _ => rfl⟩,
      ⟨fun h => by omega, fun hs => absurd hs hns⟩,
      ⟨fun h => by omega, fun h => absurd hbp h.1⟩⟩
  · rw [if_neg h1]
    have hnb : ¬∃ m r, mom 5 xs t = some m ∧ rsi xs t = some r ∧
        0 < m ∧ 30 < r ∧ r < 70 := fun hb => h1 (hbi.mpr hb)
    by_cases h2 : momSellCond (mom 5 xs t) (rsi xs t) = true
    · rw [if_pos h2]
      have hsp := hsi.mp h2
      refine ⟨⟨fun h => by omega, fun hb => absurd hb hnb⟩,
        ⟨fun _ => hsp, fun _ => rfl⟩,
        ⟨fun h => by omega, fun h => absurd hsp h.2⟩⟩
    · rw [if_neg h2]
      have hns : ¬∃ m r, mom 5 xs t = some m ∧ rsi xs t = some r ∧
          m < 0 ∧ 70 < r := fun hs => h2 (hsi.mpr hs)
      exact ⟨⟨fun h => by omega, fun hb => absurd hb hnb⟩,
        ⟨fun h => by omega, fun hs => absurd hs hns⟩,
        ⟨fun _ => ⟨hnb, hns⟩, fun _ => rfl⟩⟩

/-- C2: for every timestamp `t`, the mean-reversion classification with
band multiplier `k = 1.5` marks `t` Buy iff `ZScore(t) < -k`, Sell iff
`ZScore(t) > k`, and Neutral otherwise — in particular whenever
`ZScore(t)` is undefined it is marked neither Buy nor Sell. -/
theorem C2_meanrev_signal_classification (xs : List ℚ) (t : ℕ) :
    (mrSignal xs t = .buy ↔ ∃ z, zScore xs t = some z ∧ z < -(3 / 2 : ℝ)) ∧
    (mrSignal xs t = .sell ↔ ∃ z, zScore xs t = some z ∧ (3 / 2 : ℝ) < z) ∧
    (mrSignal xs t = .neutral ↔
      ¬(∃ z, zScore xs t = some z ∧ z < -(3 / 2 : ℝ)) ∧
      ¬(∃ z, zScore xs t = some z ∧ (3 / 2 : ℝ) < z)) := by
  rcases hz : zScore xs t with _ | z
  · rw [mrSignal_none xs t hz]
    simp
  · rw [mrSignal_some xs t z hz]
    by_cases h1 : z < -(3 / 2 : ℝ)
    · have h2 : ¬((3 / 2 : ℝ) < z) := by linarith
      rw [if_pos h1]
      simp [h1, h2]
    · by_cases h2 : (3 / 2 : ℝ) < z
      · rw [if_neg h1, if_pos h2]
        simp [h1, h2]
      · rw [if_neg h1, if_neg h2]
        simp [h1, h2]

/-- C7: for every timestamp and each engine exactly one of
{Buy, Sell, Neutral} holds, and the Buy and Sell conditions of each
engine are mutually exclusive for any indicator values (the momentum
conditions `M5 > 0 ∧ 30 < RSI < 70` versus `M5 < 0 ∧ RSI > 70`, and the
mean-reversion conditions `Z < -1.5` versus `Z > 1.5`, select disjoint
ranges). -/
theorem C7_signal_exclusivity (xs : List ℚ) (t : ℕ) :
    (∀ m r : Option ℚ, ¬(momBuyCond m r = true ∧ momSellCond m r = true)) ∧
    (∀ z : ℝ, zScore xs t = some z → ¬(z < -(3 / 2 : ℝ) ∧ (3 / 2 : ℝ) < z)) ∧
    ((momSignal xs t = 1 ∧ momSignal xs t ≠ -1 ∧ momSignal xs t ≠ 0) ∨
     (momSignal xs t ≠ 1 ∧ momSignal xs t = -1 ∧ momSignal xs t ≠ 0) ∨
     (momSignal xs t ≠ 1 ∧ momSignal xs t ≠ -1 ∧ momSignal xs t = 0)) ∧
    ((mrSignal xs t = .buy ∧ mrSignal xs t ≠ .sell ∧ mrSignal xs t ≠ .neutral) ∨
     (mrSignal xs t ≠ .buy ∧ mrSignal xs t = .sell ∧ mrSignal xs t ≠ .neutral) ∨
     (mrSignal xs t ≠ .buy ∧ mrSignal xs t ≠ .sell ∧ mrSignal xs t = .neutral)) := by
  refine ⟨mom_conds_disjoint, fun z _ h => by
    have h1 := h.1
    have h2 := h.2
    linarith, ?_, ?_⟩
  · unfold momSignal
    by_cases h1 : momBuyCond (mom 5 xs t) (rsi xs t) = true
    · rw [if_pos h1]
      exact Or.inl ⟨rfl, by omega, by omega⟩
    · rw [if_neg h1]
      by_cases h2 : momSellCond (mom 5 xs t) (rsi xs t) = true
      · rw [if_pos h2]
        exact Or.inr (Or.inl ⟨by omega, rfl, by omega⟩)
      · rw [if_neg h2]
        exact Or.inr (Or.inr ⟨by omega, by omega, rfl⟩)
  · rcases hz : zScore xs t with _ | z
    · rw [mrSignal_none xs t hz]
      exact Or.inr (Or.inr ⟨by simp, by simp, rfl⟩)
    · rw [mrSignal_some xs t z hz]
      by_cases h1 : z < -(3 / 2 : ℝ)
      · rw [if_pos h1]
        exact Or.inl ⟨rfl, by simp, by simp⟩
      · rw [if_neg h1]
        by_cases h2 : (3 / 2 : ℝ) < z
        · rw [if_pos h2]
          exact Or.inr (Or.inl ⟨by simp, rfl, by simp⟩)
        · rw [if_neg h2]
          exact Or.inr (Or.inr ⟨by simp, by simp, rfl⟩)

end SwitchGain

namespace SwitchGain

theorem gain_const_zero (xs : List ℚ) (c : ℚ) (hc : ∀ x ∈ xs, x = c) (i : ℕ)
    (h1 : 1 ≤ i) (hi : i < xs.length) : gain xs i = some 0 := by
  obtain ⟨x, hx⟩ := get?_some_of_lt xs i hi
  obtain ⟨y, hy⟩ := get?_some_of_lt xs (i - 1) (lt_of_le_of_lt (Nat.sub_le i 1) hi)
  have hxc : x = c := hc x (List.get?_mem hx)
  have hyc : y = c := hc y (List.get?_mem hy)
  unfold gain
  rw [if_neg (by omega : ¬i = 0), hx, hy]
  simp [hxc, hyc]

theorem loss_const_zero (xs : List ℚ) (c : ℚ) (hc : ∀ x ∈ xs, x = c) (i : ℕ)
    (h1 : 1 ≤ i) (hi : i < xs.length) : loss xs i = some 0 := by
  obtain ⟨x, hx⟩ := get?_some_of_lt xs i hi
  obtain ⟨y, hy⟩ := get?_some_of_lt xs (i - 1) (lt_of_le_of_lt (Nat.sub_le i 1) hi)
  have hxc : x = c := hc x (List.get?_mem hx)
  have hyc : y = c := hc y (List.get?_mem hy)
  unfold loss
  rw [if_neg (by omega : ¬i = 0), hx, hy]
  simp [hxc, hyc]

end SwitchGain

namespace SwitchGain

/-- C3 (amended): for every series and every in-range timestamp `t`,
`Momentum_5D(t)` is defined exactly when `t ≥ 5`; `SMA(t)`, `STD(t)`
(window 20) are defined exactly when `t ≥ 19`; `ZScore(t)` is defined
exactly when `t ≥ 19` and the rolling variance is nonzero; `RSI(t)` is
undefined for the first 14 timestamps and defined at a later in-range
timestamp exactly when the smoothed average gain and loss are not both
zero. -/
theorem C3_warmup_regions (xs : List ℚ) (t : ℕ) :
    ((mom 5 xs t).isSome ↔ 5 ≤ t ∧ t < xs.length) ∧
    ((sma 20 xs t).isSome ↔ 19 ≤ t ∧ t < xs.length) ∧
    ((svar 20 xs t).isSome ↔ 19 ≤ t ∧ t < xs.length) ∧
    ((rollStd xs t).isSome ↔ 19 ≤ t ∧ t < xs.length) ∧
    ((zScore xs t).isSome ↔ 19 ≤ t ∧ t < xs.length ∧ svar 20 xs t ≠ some 0) ∧
    ((rsi xs t).isSome ↔ 14 ≤ t ∧ t < xs.length ∧
      ¬(avgGain xs t = some 0 ∧ avgLoss xs t = some 0)) := by
  refine ⟨mom_isSome_iff 5 xs t, ?_, ?_, ?_, zScore_isSome_iff xs t,
    rsi_isSome_iff xs t⟩
  · rw [sma_isSome_iff]
    omega
  · rw [svar_isSome_iff]
    omega
  · constructor
    · intro h
      have hsv : (svar 20 xs t).isSome := by
        rcases hv : svar 20 xs t with _ | v
        · unfold rollStd at h
          rw [hv] at h
          simp at h
        · simp
      rw [svar_isSome_iff] at hsv
      omega
    · intro h
      have hsv : (svar 20 xs t).isSome := by
        rw [svar_isSome_iff]
        omega
      obtain ⟨v, hv⟩ := Option.isSome_iff_exists.mp hsv
      unfold rollStd
      rw [hv]
      simp

/-- C3 counterexample: the claim asserts `RSI` is defined at every
in-range timestamp after the first 14, but for the constant series of
15 closes at 50 the timestamp `t = 14` is in range and past the
warm-up, and `RSI(14)` is undefined (`avg_gain = avg_loss = 0`, so
`RS = 0/0`). -/
theorem C3_counterexample :
    14 < (List.replicate 15 (50 : ℚ)).length ∧
    rsi (List.replicate 15 (50 : ℚ)) 14 = none := by
  constructor
  · simp
  · simp [rsi, avgGain, avgLoss, wilder, gain, loss, sumOpt, List.range_succ,
      List.get?, List.replicate]

/-- C6: causality — appending future PricePoints to a series does not
change any indicator value at an existing timestamp: on the extension
`xs ++ ys`, `RSI`, `SMA`, `Momentum_1D`, `Momentum_5D`, `STD` and
`ZScore` at every `t < xs.length` equal their values on `xs`. -/
theorem C6_causality (xs ys : List ℚ) (t : ℕ) (ht : t < xs.length) :
    rsi (xs ++ ys) t = rsi xs t ∧
    sma 20 (xs ++ ys) t = sma 20 xs t ∧
    mom 1 (xs ++ ys) t = mom 1 xs t ∧
    mom 5 (xs ++ ys) t = mom 5 xs t ∧
    rollStd (xs ++ ys) t = rollStd xs t ∧
    zScore (xs ++ ys) t = zScore xs t :=
  ⟨rsi_append xs ys t ht, sma_append 20 xs ys t ht, mom_append 1 xs ys t ht,
   mom_append 5 xs ys t ht, rollStd_append xs ys t ht, zScore_append xs ys t ht⟩

/-- C6 witness: the causality theorem applied at the concrete series
`[100, 101, 102]` extended by `[99]`, at timestamp `0`. -/
theorem C6_causality_witness :
    0 < ([100, 101, 102] : List ℚ).length ∧
    (rsi (([100, 101, 102] : List ℚ) ++ [99]) 0 = rsi ([100, 101, 102] : List ℚ) 0 ∧
     sma 20 (([100, 101, 102] : List ℚ) ++ [99]) 0 = sma 20 ([100, 101, 102] : List ℚ) 0 ∧
     mom 1 (([100, 101, 102] : List ℚ) ++ [99]) 0 = mom 1 ([100, 101, 102] : List ℚ) 0 ∧
     mom 5 (([100, 101, 102] : List ℚ) ++ [99]) 0 = mom 5 ([100, 101, 102] : List ℚ) 0 ∧
     rollStd (([100, 101, 102] : List ℚ) ++ [99]) 0 = rollStd ([100, 101, 102] : List ℚ) 0 ∧
     zScore (([100, 101, 102] : List ℚ) ++ [99]) 0 = zScore ([100, 101, 102] : List ℚ) 0) :=
  ⟨by norm_num, C6_causality [100, 101, 102] [99] 0 (by norm_num)⟩

/-- C10: for a close series constant at every timestamp, every
single-period gain and loss is 0, the 14-period smoothed average gain
and loss are both 0 wherever defined, `RS = 0/0` makes `RSI` undefined
at every timestamp (neither 100 nor an error), and the momentum signal
is Neutral (0) at every timestamp. -/
theorem C10_constant_series_neutral (xs : List ℚ) (c : ℚ) (t : ℕ)
    (hc : ∀ x ∈ xs, x = c) :
    (14 ≤ t → t < xs.length →
      avgGain xs t = some 0 ∧ avgLoss xs t = some 0) ∧
    rsi xs t = none ∧
    momSignal xs t = 0 := by
  have havg : 14 ≤ t → t < xs.length →
      avgGain xs t = some 0 ∧ avgLoss xs t = some 0 := by
    intro h14 hlen
    constructor
    · exact wilder_const_zero _ t h14 (fun i hi1 hi2 =>
        gain_const_zero xs c hc i hi1 (lt_of_le_of_lt hi2 hlen))
    · exact wilder_const_zero _ t h14 (fun i hi1 hi2 =>
        loss_const_zero xs c hc i hi1 (lt_of_le_of_lt hi2 hlen))
  have hrsi : rsi xs t = none := by
    by_cases hdom : 14 ≤ t ∧ t < xs.length
    · obtain ⟨hg0, hl0⟩ := havg hdom.1 hdom.2
      unfold rsi
      rw [hg0, hl0]
      simp
    · have hns : ¬(rsi xs t).isSome = true := by
        rw [rsi_isSome_iff]
        rintro ⟨h1, h2, -⟩
        exact hdom ⟨h1, h2⟩
      exact Option.not_isSome_iff_eq_none.mp hns
  refine ⟨havg, hrsi, ?_⟩
  unfold momSignal momBuyCond momSellCond gtOpt ltOpt
  rw [hrsi]
  simp

/-- C10 witness: the constant-series theorem applied to the spec's
25-point constant series at timestamp 16. -/
theorem C10_witness :
    (∀ x ∈ constSeries, x = (50 : ℚ)) ∧
    ((14 ≤ 16 → 16 < constSeries.length →
        avgGain constSeries 16 = some 0 ∧ avgLoss constSeries 16 = some 0) ∧
      rsi constSeries 16 = none ∧ momSignal constSeries 16 = 0) := by
  have hc : ∀ x ∈ constSeries, x = (50 : ℚ) := by
    intro x hx
    exact List.eq_of_mem_replicate hx
  exact ⟨hc, C10_constant_series_neutral constSeries 50 16 hc⟩

end SwitchGain

namespace SwitchGain

theorem v4_window : window 20 v4Series 19 = v4Series := by
  unfold window
  rw [show (19 + 1 - 20 : ℕ) = 0 by norm_num, List.drop_zero,
    List.take_of_length_le (by norm_num [v4Series])]

theorem v4_sum : v4Series.sum = 2000 := by
  norm_num [v4Series]

theorem v4_get : v4Series.get? 19 = some 100 := by
  simp [v4Series, List.get?]

theorem v4_sma : sma 20 v4Series 19 = some 100 := by
  unfold sma
  rw [if_pos ⟨by norm_num, by norm_num [v4Series]⟩, v4_window, v4_sum]
  norm_num

theorem v4_svar : svar 20 v4Series 19 = some 4 := by
  unfold svar
  rw [if_pos ⟨by norm_num, by norm_num [v4Series]⟩, v4_window, v4_sum]
  norm_num [v4Series]

end SwitchGain

namespace SwitchGain

/-- C4: `ZScore(t)` equals `(close(t) - SMA(t)) / STD(t)` whenever the
window statistics are defined and the variance is nonzero; it is
`undefined` (no error, no crash) whenever `STD(t)` is undefined or
zero; and for a close series constant across a full 20-period window,
`STD(t) = 0`, `ZScore(t)` is undefined, and the mean-reversion signal
is Neutral. -/
theorem C4_zscore_definition_and_guard (xs : List ℚ) (t : ℕ) :
    (∀ c m v, xs.get? t = some c → sma 20 xs t = some m →
      svar 20 xs t = some v → v ≠ 0 →
      zScore xs t = some (((c : ℝ) - (m : ℝ)) / Real.sqrt v) ∧
      rollStd xs t = some (Real.sqrt v) ∧ Real.sqrt (v : ℝ) ≠ 0) ∧
    (rollStd xs t = none ∨ rollStd xs t = some 0 → zScore xs t = none) ∧
    (∀ c, 19 ≤ t → t < xs.length → (∀ x ∈ window 20 xs t, x = c) →
      rollStd xs t = some 0 ∧ zScore xs t = none ∧
      mrSignal xs t = .neutral) := by
  refine ⟨?_, ?_, ?_⟩
  · intro c m v hc hm hv hv0
    refine ⟨zScore_eq_some xs t c m v hc hm hv hv0, ?_, ?_⟩
    · unfold rollStd
      rw [hv]
      rfl
    · have hvn : (0 : ℚ) ≤ v := svar_nonneg 20 xs t v hv
      have hpos : (0 : ℝ) < Real.sqrt (v : ℝ) :=
        Real.sqrt_pos.mpr (by exact_mod_cast lt_of_le_of_ne hvn (Ne.symm hv0))
      exact hpos.ne'
  · intro h
    have hns : ¬(zScore xs t).isSome = true := by
      rw [zScore_isSome_iff]
      rintro ⟨h19, hlen, hne⟩
      have hsv : (svar 20 xs t).isSome :=
        (svar_isSome_iff 20 xs t).mpr ⟨by omega, hlen⟩
      obtain ⟨v, hv⟩ := Option.isSome_iff_exists.mp hsv
      rcases h with h | h
      · unfold rollStd at h
        rw [hv] at h
        simp at h
      · unfold rollStd at h
        rw [hv] at h
        simp at h
        have hvn : (0 : ℚ) ≤ v := svar_nonneg 20 xs t v hv
        have hv0 : v = 0 := by
          have hr : (v : ℝ) = 0 :=
            (Real.sqrt_eq_zero (by exact_mod_cast hvn)).mp h
          exact_mod_cast hr
        exact hne (by rw [hv, hv0])
    exact Option.not_isSome_iff_eq_none.mp hns
  · intro c h19 hlen hconst
    have hv0 : svar 20 xs t = some 0 :=
      svar_const_zero 20 xs t c (by norm_num) (by omega) hlen hconst
    have hstd : rollStd xs t = some 0 := by
      unfold rollStd
      rw [hv0]
      simp
    have hzs : zScore xs t = none := by
      have hns : ¬(zScore xs t).isSome = true := by
        rw [zScore_isSome_iff]
        rintro ⟨-, -, hne⟩
        exact hne hv0
      exact Option.not_isSome_iff_eq_none.mp hns
    exact ⟨hstd, hzs, mrSignal_none xs t hzs⟩

/-- C4 witness: the theorem applied at the variance-4 series (where the
Z-Score takes its defining value) and at the spec's constant 25-point
series (where `STD = 0`, the Z-Score is undefined, and the signal is
Neutral). -/
theorem C4_witness :
    (v4Series.get? 19 = some 100 ∧ sma 20 v4Series 19 = some 100 ∧
      svar 20 v4Series 19 = some 4 ∧ (4 : ℚ) ≠ 0 ∧
      rollStd v4Series 19 = some (Real.sqrt ((4 : ℚ) : ℝ))) ∧
    ((∀ x ∈ window 20 constSeries 19, x = (50 : ℚ)) ∧
      rollStd constSeries 19 = some 0 ∧ zScore constSeries 19 = none ∧
      mrSignal constSeries 19 = .neutral) := by
  have hconst : ∀ x ∈ window 20 constSeries 19, x = (50 : ℚ) := by
    intro x hx
    unfold window at hx
    exact List.eq_of_mem_replicate
      (List.take_subset _ _ (List.drop_subset _ _ hx))
  have h1 := (C4_zscore_definition_and_guard v4Series 19).1 100 100 4
    v4_get v4_sma v4_svar (by norm_num)
  have h2 := (C4_zscore_definition_and_guard constSeries 19).2.2 50
    (by norm_num) (by simp [constSeries]) hconst
  exact ⟨⟨v4_get, v4_sma, v4_svar, by norm_num, h1.2.1⟩,
    ⟨hconst, h2.1, h2.2.1, h2.2.2⟩⟩

/-- C5: wherever the 14-period smoothed average gain and loss are
defined, `RSI = 100 - 100/(1 + RS)` with `RS = avg_gain/avg_loss` when
`avg_loss ≠ 0`; `RSI = 100` when `avg_loss = 0` and `avg_gain > 0`; and
every defined RSI value lies in `[0, 100]`. -/
theorem C5_rsi_formula_and_bounds (xs : List ℚ) (t : ℕ) (ag al : ℚ)
    (hg : avgGain xs t = some ag) (hl : avgLoss xs t = some al) :
    (al ≠ 0 → rsi xs t = some (100 - 100 / (1 + ag / al))) ∧
    (al = 0 → 0 < ag → rsi xs t = some 100) ∧
    (∀ r, rsi xs t = some r → 0 ≤ r ∧ r ≤ 100) := by
  have hag : (0 : ℚ) ≤ ag := avgGain_nonneg xs t ag hg
  have hal : (0 : ℚ) ≤ al := avgLoss_nonneg xs t al hl
  have hrsi : rsi xs t = (if al = 0 then (if 0 < ag then some 100 else none)
      else some (100 - 100 / (1 + ag / al))) := by
    unfold rsi
    rw [hg, hl]
  refine ⟨?_, ?_, ?_⟩
  · intro h
    rw [hrsi, if_neg h]
  · intro h0 hpos
    rw [hrsi, if_pos h0, if_pos hpos]
  · intro r hr
    rw [hrsi] at hr
    by_cases h0 : al = 0
    · rw [if_pos h0] at hr
      by_cases hpos : 0 < ag
      · rw [if_pos hpos] at hr
        rw [Option.some_inj] at hr
        subst hr
        norm_num
      · rw [if_neg hpos] at hr
        cases hr
    · rw [if_neg h0] at hr
      rw [Option.some_inj] at hr
      subst hr
      have halp : 0 < al := lt_of_le_of_ne hal (Ne.symm h0)
      have hrs : 0 ≤ ag / al := div_nonneg hag hal
      have h1 : (1 : ℚ) ≤ 1 + ag / al := by linarith
      have h2 : 0 < 100 / (1 + ag / al) := by positivity
      have h3 : 100 / (1 + ag / al) ≤ 100 := div_le_self (by norm_num) h1
      constructor <;> linarith

/-- C5 witness: the RSI formula theorem applied to a strictly rising
16-point series at `t = 15`, where the smoothed average gain is 1 and
the smoothed average loss is 0, so `RSI = 100`. -/
theorem C5_witness :
    avgGain risingSeries 15 = some 1 ∧ avgLoss risingSeries 15 = some 0 ∧
    (((0 : ℚ) ≠ 0 → rsi risingSeries 15 = some (100 - 100 / (1 + 1 / 0))) ∧
     ((0 : ℚ) = 0 → (0 : ℚ) < 1 → rsi risingSeries 15 = some 100) ∧
     (∀ r, rsi risingSeries 15 = some r → 0 ≤ r ∧ r ≤ 100)) := by
  have hg : avgGain risingSeries 15 = some 1 := by
    simp [avgGain, wilder, gain, sumOpt, List.range_succ, List.get?,
      risingSeries]
    norm_num
  have hl : avgLoss risingSeries 15 = some 0 := by
    simp [avgLoss, wilder, loss, sumOpt, List.range_succ, List.get?,
      risingSeries]
    norm_num
  exact ⟨hg, hl, C5_rsi_formula_and_bounds risingSeries 15 1 0 hg hl⟩

end SwitchGain

namespace SwitchGain

/-- C8: the band multiplier in `Upper/Lower = SMA ± k·STD` and the
signal threshold on the Z-Score are the same constant `k = 1.5`;
consequently, wherever `STD(t)` is defined and strictly positive,
`ZScore(t) < -k` iff `close(t) < LowerBand(t)` and `ZScore(t) > k` iff
`close(t) > UpperBand(t)`. -/
theorem C8_band_and_threshold_share_k (xs : List ℚ) (t : ℕ) (c m v : ℚ)
    (z u l : ℝ) (hc : xs.get? t = some c) (hm : sma 20 xs t = some m)
    (hv : svar 20 xs t = some v) (hvpos : 0 < v) (hz : zScore xs t = some z)
    (hu : upperBand xs t = some u) (hl : lowerBand xs t = some l) :
    u = (m : ℝ) + Real.sqrt v * (3 / 2) ∧
    l = (m : ℝ) - Real.sqrt v * (3 / 2) ∧
    (z < -(3 / 2 : ℝ) ↔ (c : ℝ) < l) ∧
    ((3 / 2 : ℝ) < z ↔ u < (c : ℝ)) := by
  have hsq : (0 : ℝ) < Real.sqrt (v : ℝ) :=
    Real.sqrt_pos.mpr (by exact_mod_cast hvpos)
  have hstd : rollStd xs t = some (Real.sqrt (v : ℝ)) := by
    unfold rollStd
    rw [hv]
    rfl
  have hu' : u = (m : ℝ) + Real.sqrt (v : ℝ) * (3 / 2) := by
    unfold upperBand at hu
    rw [hm, hstd] at hu
    simp at hu
    exact hu.symm
  have hl' : l = (m : ℝ) - Real.sqrt (v : ℝ) * (3 / 2) := by
    unfold lowerBand at hl
    rw [hm, hstd] at hl
    simp at hl
    exact hl.symm
  have hz' : z = ((c : ℝ) - (m : ℝ)) / Real.sqrt (v : ℝ) := by
    have hzz := zScore_eq_some xs t c m v hc hm hv hvpos.ne'
    rw [hz] at hzz
    rw [Option.some_inj] at hzz
    exact hzz
  subst hu' hl' hz'
  refine ⟨rfl, rfl, ?_, ?_⟩
  · rw [div_lt_iff hsq]
    constructor <;> intro h <;> nlinarith [hsq]
  · rw [lt_div_iff hsq]
    constructor <;> intro h <;> nlinarith [hsq]

/-- C8 witness: the band/threshold equivalence applied at the
variance-4 series at `t = 19`, where `close = SMA = 100`, the variance
is 4, and the Z-Score is 0. -/
theorem C8_witness :
    (0 : ℚ) < 4 ∧ zScore v4Series 19 = some 0 ∧
    upperBand v4Series 19 = some (((100 : ℚ) : ℝ) + Real.sqrt ((4 : ℚ) : ℝ) * (3 / 2)) ∧
    lowerBand v4Series 19 = some (((100 : ℚ) : ℝ) - Real.sqrt ((4 : ℚ) : ℝ) * (3 / 2)) ∧
    (((0 : ℝ) < -(3 / 2 : ℝ) ↔
        ((100 : ℚ) : ℝ) < ((100 : ℚ) : ℝ) - Real.sqrt ((4 : ℚ) : ℝ) * (3 / 2)) ∧
     ((3 / 2 : ℝ) < (0 : ℝ) ↔
        ((100 : ℚ) : ℝ) + Real.sqrt ((4 : ℚ) : ℝ) * (3 / 2) < ((100 : ℚ) : ℝ))) := by
  have hstd : rollStd v4Series 19 = some (Real.sqrt ((4 : ℚ) : ℝ)) := by
    unfold rollStd
    rw [v4_svar]
    rfl
  have hz : zScore v4Series 19 = some 0 := by
    have hzz := zScore_eq_some v4Series 19 100 100 4 v4_get v4_sma v4_svar
      (by norm_num)
    rw [hzz]
    norm_num
  have hu : upperBand v4Series 19
      = some (((100 : ℚ) : ℝ) + Real.sqrt ((4 : ℚ) : ℝ) * (3 / 2)) := by
    unfold upperBand
    rw [v4_sma, hstd]
  have hl : lowerBand v4Series 19
      = some (((100 : ℚ) : ℝ) - Real.sqrt ((4 : ℚ) : ℝ) * (3 / 2)) := by
    unfold lowerBand
    rw [v4_sma, hstd]
  have happ := C8_band_and_threshold_share_k v4Series 19 100 100 4 0 _ _
    v4_get v4_sma v4_svar (by norm_num) hz hu hl
  exact ⟨by norm_num, hz, hu, hl, happ.2.2.1, happ.2.2.2⟩

/-- C9: wherever the 20-period rolling statistics are defined, the
source's `STD(t)` is the sample standard deviation of the trailing 20
closes — the nonnegative real whose square is the sum of squared
deviations from the window mean divided by `N - 1 = 19` — and it does
not follow the population convention: whenever the variance is nonzero
the population value (denominator `N = 20`) is strictly smaller. -/
theorem C9_sample_std_convention (xs : List ℚ) (t : ℕ) (v : ℚ) (s : ℝ)
    (hv : svar 20 xs t = some v) (hs : rollStd xs t = some s) :
    (19 ≤ t ∧ t < xs.length) ∧
    0 ≤ s ∧
    s ^ 2 = ((((window 20 xs t).map
      (fun x => (x - (window 20 xs t).sum / 20) ^ 2)).sum / 19 : ℚ) : ℝ) ∧
    (0 < v → (((window 20 xs t).map
      (fun x => (x - (window 20 xs t).sum / 20) ^ 2)).sum / 20 : ℚ) < v) := by
  have hdom : 20 ≤ t + 1 ∧ t < xs.length :=
    (svar_isSome_iff 20 xs t).mp (by rw [hv]; simp)
  have hvn : (0 : ℚ) ≤ v := svar_nonneg 20 xs t v hv
  have hsv : s = Real.sqrt (v : ℝ) := by
    unfold rollStd at hs
    rw [hv] at hs
    simp at hs
    exact hs.symm
  have hveq : v = ((window 20 xs t).map
      (fun x => (x - (window 20 xs t).sum / 20) ^ 2)).sum / 19 := by
    unfold svar at hv
    rw [if_pos hdom] at hv
    rw [Option.some_inj] at hv
    rw [← hv]
    norm_num
  refine ⟨⟨by omega, hdom.2⟩, ?_, ?_, ?_⟩
  · rw [hsv]
    exact Real.sqrt_nonneg _
  · rw [hsv, Real.sq_sqrt (by exact_mod_cast hvn : (0 : ℝ) ≤ (v : ℝ))]
    exact_mod_cast hveq
  · intro hvpos
    have hsum : 0 < ((window 20 xs t).map
        (fun x => (x - (window 20 xs t).sum / 20) ^ 2)).sum := by
      rw [hveq] at hvpos
      rcases div_pos_iff.mp hvpos with ⟨h, -⟩ | ⟨-, h⟩
      · exact h
      · norm_num at h
    calc ((window 20 xs t).map
        (fun x => (x - (window 20 xs t).sum / 20) ^ 2)).sum / 20
        < ((window 20 xs t).map
        (fun x => (x - (window 20 xs t).sum / 20) ^ 2)).sum / 19 := by
          exact div_lt_div_of_pos_left hsum (by norm_num) (by norm_num)
      _ = v := hveq.symm

/-- C9 witness: the sample-convention theorem applied at the
variance-4 series at `t = 19`. -/
theorem C9_witness :
    svar 20 v4Series 19 = some 4 ∧
    rollStd v4Series 19 = some (Real.sqrt ((4 : ℚ) : ℝ)) ∧
    (19 ≤ 19 ∧ 19 < v4Series.length) ∧ 0 ≤ Real.sqrt ((4 : ℚ) : ℝ) := by
  have hs : rollStd v4Series 19 = some (Real.sqrt ((4 : ℚ) : ℝ)) := by
    unfold rollStd
    rw [v4_svar]
    rfl
  have happ := C9_sample_std_convention v4Series 19 4
    (Real.sqrt ((4 : ℚ) : ℝ)) v4_svar hs
  exact ⟨v4_svar, hs, happ.1, happ.2.1⟩

end SwitchGain
